import Mathlib

/-!
Verification of the stock-runner backtesting engine.

The engine is embedded shallowly: JavaScript numbers are modelled as exact
rationals, JS objects used as string-keyed maps are modelled as association
lists with JS object semantics (updating an existing key keeps its position,
a new key is appended, `delete` removes the entry), and code that can throw
returns `Except`.  Each definition mirrors one function of the source
(`src/backtest/index.js`, `src/backtest/stock.js`, `src/brokers/alpaca.js`
latest revision, and the `CandleBuffer` module).
-/

namespace StockRunner

/-- Order side, the `type` field of a swap record (`'buy' | 'sell'`). -/
inductive Side where
  | buy
  | sell
deriving DecidableEq, Repr

/-- One executed buy or sell, as pushed to `this.swaps`. -/
structure Swap where
  side : Side
  stockName : String
  quantity : ℚ
  price : ℚ
  fee : ℚ
  timestamp : ℤ
deriving DecidableEq, Repr

/-- A closed round trip, as pushed to `this.trades`. -/
structure Trade where
  stockName : String
  quantity : ℚ
  price : ℚ
  timestamp : ℤ
  fee : ℚ
  profit : ℚ
  profitPercent : ℚ
  features : Option (List ℚ)
deriving DecidableEq, Repr

/-! ### JS object maps as association lists -/

/-- Reading `obj[k]` from a JS object: the value at the first (only) entry
with key `k`, absent otherwise. -/
def lookupA {κ α : Type} [DecidableEq κ] : List (κ × α) → κ → Option α
  | [], _ => none
  | (k', v) :: rest, k => if k' = k then some v else lookupA rest k

/-- Writing `obj[k] = v` in a JS object: an existing key keeps its position
and gets the new value, a fresh key is appended at the end. -/
def setA {κ α : Type} [DecidableEq κ] : List (κ × α) → κ → α → List (κ × α)
  | [], k, v => [(k, v)]
  | (k', v') :: rest, k, v =>
      if k' = k then (k, v) :: rest else (k', v') :: setA rest k v

/-- `delete obj[k]` in a JS object. -/
def eraseA {κ α : Type} [DecidableEq κ] (m : List (κ × α)) (k : κ) : List (κ × α) :=
  m.filter (fun e => decide (e.1 ≠ k))

/-! ### The engine state (`Backtest` constructor fields) -/

/-- Mutable state of the `Backtest` class (the report/log parameters are
omitted; they do not affect the simulation). -/
structure BacktestState where
  cashBalance : ℚ
  startCashBalance : ℚ
  stockBalances : List (String × ℚ)
  holdSince : List (String × ℤ)
  stockPrices : List (String × ℚ)
  stockFeatures : List (String × List ℚ)
  swaps : List Swap
  trades : List Trade
  equityCurve : List (ℤ × ℚ × ℚ)
  delistCounter : List (String × ℚ)
  totalFees : ℚ
deriving DecidableEq, Repr

/-- The state assembled by the `Backtest` constructor. -/
def initState (startCashBalance : ℚ) : BacktestState :=
  { cashBalance := startCashBalance
    startCashBalance := startCashBalance
    stockBalances := []
    holdSince := []
    stockPrices := []
    stockFeatures := []
    swaps := []
    trades := []
    equityCurve := []
    delistCounter := []
    totalFees := 0 }

/-- A broker is its pure `calculateFees(qty, price, side)` policy. -/
def Fees : Type := ℚ → ℚ → Side → ℚ

/-- The base `Broker` charges nothing (the default broker of the engine). -/
def feeFree : Fees := fun _ _ _ => 0

/-- Errors thrown by `Backtest.buy` / `Backtest.sell`. -/
inductive EngineErr where
  | insufficientCash
  | insufficientShares
deriving DecidableEq, Repr

namespace Backtest

/-- `Backtest.buy(stockName, quantity, price, timestamp, features)`.
The cash check precedes every state update in the source, so on failure the
input state is returned untouched by construction. -/
def buy (fees : Fees) (s : BacktestState) (stockName : String)
    (quantity price : ℚ) (timestamp : ℤ) (features : Option (List ℚ)) :
    Except EngineErr BacktestState :=
  let cost := quantity * price
  let fee := fees quantity price Side.buy
  if s.cashBalance < cost + fee then
    .error .insufficientCash
  else
    .ok { s with
      cashBalance := s.cashBalance - (cost + fee)
      stockBalances := setA s.stockBalances stockName
        ((lookupA s.stockBalances stockName).getD 0 + quantity)
      totalFees := s.totalFees + fee
      swaps := s.swaps ++ [⟨Side.buy, stockName, quantity, price, fee, timestamp⟩]
      stockPrices := setA s.stockPrices stockName price
      holdSince := setA s.holdSince stockName timestamp
      stockFeatures :=
        match features with
        | some f => setA s.stockFeatures stockName f
        | none => s.stockFeatures }

/-- `Backtest.sell(stockName, quantity, price, timestamp)`.  The trade is
pushed before the sell swap is appended, so the profit walk sees only the
swaps recorded before this sell.  `lastSell === -1 ? swaps.length : lastSell`
is exactly `List.findIdx`, which returns the length when nothing matches. -/
def sell (fees : Fees) (s : BacktestState) (stockName : String)
    (quantity price : ℚ) (timestamp : ℤ) :
    Except EngineErr BacktestState :=
  let bal0 := (lookupA s.stockBalances stockName).getD 0
  if bal0 = 0 then
    .error .insufficientShares
  else if bal0 < quantity then
    .error .insufficientShares
  else
    let proceeds := quantity * price
    let fee := fees quantity price Side.sell
    let swapsRev := s.swaps.reverse.filter (fun t => decide (t.stockName = stockName))
    let lastSell := swapsRev.findIdx (fun t => decide (t.side = Side.sell))
    let buys := (swapsRev.take lastSell).filter (fun t => decide (t.side = Side.buy))
    let cost := (buys.map (fun t => t.quantity * t.price)).sum
    let buyFees := (buys.map (fun t => t.fee)).sum
    let profit := proceeds - cost - buyFees - fee
    let profitPercent := if cost = 0 then 0 else profit / cost
    let features := lookupA s.stockFeatures stockName
    let newBal := bal0 - quantity
    let balances1 := setA s.stockBalances stockName newBal
    .ok { s with
      cashBalance := s.cashBalance + (proceeds - fee)
      stockBalances := if newBal = 0 then eraseA balances1 stockName else balances1
      totalFees := s.totalFees + fee
      stockPrices := setA s.stockPrices stockName price
      trades := s.trades ++
        [⟨stockName, quantity, price, timestamp, fee, profit, profitPercent, features⟩]
      holdSince := if newBal = 0 then eraseA s.holdSince stockName else s.holdSince
      stockFeatures := if newBal = 0 then eraseA s.stockFeatures stockName else s.stockFeatures
      swaps := s.swaps ++ [⟨Side.sell, stockName, quantity, price, fee, timestamp⟩] }

end Backtest

/-- A buy or sell order issued by a strategy callback. -/
inductive Op where
  | buyOp (stockName : String) (quantity price : ℚ) (timestamp : ℤ)
      (features : Option (List ℚ))
  | sellOp (stockName : String) (quantity price : ℚ) (timestamp : ℤ)
deriving DecidableEq, Repr

/-- Dispatch of one order to the engine. -/
def applyOp (fees : Fees) (s : BacktestState) : Op → Except EngineErr BacktestState
  | .buyOp t q p ts f => Backtest.buy fees s t q p ts f
  | .sellOp t q p ts => Backtest.sell fees s t q p ts

/-- A sequence of orders, each executed on the state left by the previous
one; the first failure aborts the run. -/
def runOps (fees : Fees) : BacktestState → List Op → Except EngineErr BacktestState
  | s, [] => .ok s
  | s, op :: rest =>
      match applyOp fees s op with
      | .error e => .error e
      | .ok s' => runOps fees s' rest

/-! ### The Alpaca broker (`src/brokers/alpaca.js`, latest revision: TAF
$0.000195/share, qty capped at 50205, max $9.79, rounded up to the cent) -/

namespace Alpaca

/-- `Alpaca.calculateFees(quantity, price, side)` with the `slippage`
constructor parameter. -/
def calculateFees (slippage quantity price : ℚ) (side : Side) : ℚ :=
  let notional := quantity * price
  let commission : ℚ := 0
  let secFee : ℚ := 0
  let finraTAF : ℚ :=
    if side = Side.sell then
      ((⌈(min ((min quantity 50205) * (195 / 1000000)) (979 / 100)) * 100⌉ : ℤ) : ℚ) / 100
    else 0
  let catFee := quantity * (265 / 10000000)
  let slipCost := notional * slippage
  commission + secFee + finraTAF + catFee + slipCost

end Alpaca

/-- The Alpaca broker as a fee policy. -/
def alpacaFees (slippage : ℚ) : Fees :=
  fun quantity price side => Alpaca.calculateFees slippage quantity price side

/-! ### `Stock` (`src/backtest/stock.js`): columnar candle store -/

/-- An OHLCV candle (`src/backtest/candle.js`, latest revision:
constructor order `open, high, low, close, volume, transactions, timestamp`). -/
structure Candle where
  open_ : ℚ
  high : ℚ
  low : ℚ
  close : ℚ
  volume : ℚ
  transactions : ℚ
  timestamp : ℚ
deriving DecidableEq, Repr

/-- The seven columns of a `Stock` plus the timestamp index map. -/
structure Stock where
  name : String
  volumes : List ℚ
  opens : List ℚ
  closes : List ℚ
  highs : List ℚ
  lows : List ℚ
  timestamps : List ℚ
  transactions : List ℚ
  timestampIndex : List (ℚ × ℕ)
  granularity : ℚ
deriving DecidableEq, Repr

namespace Stock

/-- `get size()` reads the length of the `volumes` column. -/
def size (s : Stock) : ℕ := s.volumes.length

/-- `getCandle(i)`: `null` out of range, otherwise the materialized row. -/
def getCandle (s : Stock) (i : ℤ) : Option Candle :=
  if i < 0 ∨ (s.size : ℤ) ≤ i then none
  else some {
    open_ := s.opens.getD i.toNat 0
    high := s.highs.getD i.toNat 0
    low := s.lows.getD i.toNat 0
    close := s.closes.getD i.toNat 0
    volume := s.volumes.getD i.toNat 0
    transactions := s.transactions.getD i.toNat 0
    timestamp := s.timestamps.getD i.toNat 0 }

/-- `pushCandle(candle)`: appends to every column, then records
`timestampIndex[timestamp] = size - 1` (the size after the push). -/
def pushCandle (s : Stock) (c : Candle) : Stock :=
  let s' := { s with
    volumes := s.volumes ++ [c.volume]
    opens := s.opens ++ [c.open_]
    closes := s.closes ++ [c.close]
    highs := s.highs ++ [c.high]
    lows := s.lows ++ [c.low]
    timestamps := s.timestamps ++ [c.timestamp]
    transactions := s.transactions ++ [c.transactions] }
  { s' with timestampIndex := setA s'.timestampIndex c.timestamp (s'.size - 1) }

end Stock

/-- Reading `timestamps.buffer[i]` for an integer index (in-range indices
only are ever used by the search). -/
def vQ (T : List ℚ) (i : ℤ) : ℚ := T.getD i.toNat 0

/-- Outcome of the `while` loop of `getIndex`: an exact hit returns `mid`
from inside the loop, otherwise the loop exits with `left = right + 1`. -/
inductive BsOut where
  | found (i : ℤ)
  | stopped (l : ℤ)
deriving DecidableEq, Repr

/-- The binary-search loop of `getIndex`, with explicit fuel (the source
loop terminates because the interval shrinks; `size + 1` iterations always
suffice). -/
def bsLoop (T : List ℚ) (x : ℚ) : ℕ → ℤ → ℤ → BsOut
  | 0, l, _ => .stopped l
  | fuel + 1, l, r =>
      if l ≤ r then
        let mid := (l + r) / 2
        if vQ T mid = x then .found mid
        else if vQ T mid < x then bsLoop T x fuel (mid + 1) r
        else bsLoop T x fuel l (mid - 1)
      else .stopped l

/-- `Stock.getIndex(timestamp)`: binary search over `timestamps`; on a miss
the loop leaves `right = left - 1` and the closer of the two neighbours is
picked (`leftDiff < rightDiff ? left - 1 : left`). -/
def Stock.getIndex (s : Stock) (x : ℚ) : ℤ :=
  let n : ℤ := s.size
  match bsLoop s.timestamps x (s.size + 1) 0 (n - 1) with
  | .found m => m
  | .stopped l =>
      let r := l - 1
      if 0 < l ∧ r < n - 1 then
        let leftDiff := |vQ s.timestamps (l - 1) - x|
        let rightDiff := |vQ s.timestamps (r + 1) - x|
        if leftDiff < rightDiff then l - 1 else l
      else l

/-! ### `CandleBuffer.getLast` and the per-bar `getCandles` closure of
`runOnStock` (preloaded branch) -/

/-- Errors raised on the preloaded single-symbol lookback path. -/
inductive BufferErr where
  | noDataAtOrBefore
  | insufficientData
  | referenceErrorResolve
deriving DecidableEq, Repr

namespace CandleBuffer

/-- `getLast(count, currentTs)`: last `count` candles with timestamp
`≤ currentTs`, newest first; throws when there is no candle at or before
`currentTs` or fewer than `count` are buffered. -/
def getLast (buffer : List Candle) (count : ℕ) (ts : ℚ) :
    Except BufferErr (List Candle) :=
  match buffer.findIdx? (fun c => decide (c.timestamp > ts)) with
  | some 0 => .error .noDataAtOrBefore
  | some (i + 1) =>
      let idx : ℤ := i
      let start := idx - count + 1
      if start < 0 then .error .insufficientData
      else .ok (((buffer.take (idx.toNat + 1)).drop start.toNat).reverse)
  | none =>
      let idx : ℤ := (buffer.length : ℤ) - 1
      let start := idx - count + 1
      if start < 0 then .error .insufficientData
      else .ok (((buffer.take (idx.toNat + 1)).drop start.toNat).reverse)

end CandleBuffer

namespace Backtest

/-- The preloaded branch of the `getCandles` closure created by
`runOnStock`.  After `getLast` returns, both remaining statements call
`resolve`, a name that is only bound inside the `Promise` executor of the
non-preloaded branch; in the preloaded branch it is unbound, so either
statement raises a `ReferenceError`. -/
def getCandlesPreloaded (buffer : List Candle) (count : ℕ) (ts : ℚ) :
    Except BufferErr (Option (List Candle)) :=
  match CandleBuffer.getLast buffer count ts with
  | .error e => .error e
  | .ok candles =>
      if candles.length < count then .error .referenceErrorResolve
      else .error .referenceErrorResolve

end Backtest

/-! ### Delisting detection in `runOnAllStocks` -/

/-- One held ticker processed by the delisting loop: a ticker absent from
the tick's per-symbol set gets its counter bumped and is dropped from the
balances once the counter exceeds 10. -/
def delistEntryStep (present : List String)
    (p : List (String × ℚ) × List (String × ℚ)) (name : String) :
    List (String × ℚ) × List (String × ℚ) :=
  if name ∈ present then p
  else
    let cnt := (lookupA p.2 name).getD 0 + 1
    let ctr := setA p.2 name cnt
    if cnt > 10 then (eraseA p.1 name, ctr) else (p.1, ctr)

/-- The delisting block of one dispatched tick in `runOnAllStocks`: runs
only when the per-symbol array is non-empty, and walks the tickers held in
`stockBalances`.  It touches nothing but `stockBalances` and
`delistCounter`. -/
def Backtest.delistTick (s : BacktestState) (present : List String) : BacktestState :=
  if present.isEmpty then s
  else
    let p := (s.stockBalances.map Prod.fst).foldl (delistEntryStep present)
      (s.stockBalances, s.delistCounter)
    { s with stockBalances := p.1, delistCounter := p.2 }

/-- Successive dispatched ticks, each with its per-symbol set. -/
def Backtest.delistRun (s : BacktestState) (ticks : List (List String)) : BacktestState :=
  ticks.foldl Backtest.delistTick s

/-! ### `Backtest.getMetrics` (the fields the analysed properties mention;
the remaining fields — CAGR and the geometric means — involve real
exponentials and are independent of those below) -/

/-- `sharpePeriods[name] ?? 252`. -/
def sharpePeriodsQ (intervalName : String) : ℚ :=
  if intervalName = "1d" then 252
  else if intervalName = "1h" then 252 * (13 / 2)
  else if intervalName = "5m" then 252 * 78
  else if intervalName = "1m" then 252 * 390
  else 252

/-- The equity series: curve sorted by timestamp, stripped to equity. -/
def equitySeries (ec : List (ℤ × ℚ × ℚ)) : List ℚ :=
  (ec.mergeSort (fun a b => decide (a.1 ≤ b.1))).map (fun e => e.2.1)

/-- Simple per-period returns `e_i / e_{i-1} - 1`. -/
def periodRets (series : List ℚ) : List ℚ :=
  List.zipWith (fun prev cur => cur / prev - 1) series series.tail

/-- Arithmetic mean (0 on the empty list, as `0 / 0 = 0` here). -/
def meanQ (l : List ℚ) : ℚ := l.sum / l.length

/-- Mean period return of a state's equity curve. -/
def meanRetOf (s : BacktestState) : ℚ :=
  meanQ (periodRets (equitySeries s.equityCurve))

/-- Population variance of the period returns. -/
def varRetOf (s : BacktestState) : ℚ :=
  let rets := periodRets (equitySeries s.equityCurve)
  meanQ (rets.map (fun r => (r - meanQ rets) ^ 2))

/-- Population standard deviation of the period returns. -/
noncomputable def stdRetOf (s : BacktestState) : ℝ :=
  Real.sqrt (varRetOf s)

/-- The max-drawdown fold: running peak and running minimum of
`(equity - peak) / peak`. -/
def maxDrawdownOf (series : List ℚ) : ℚ :=
  (series.foldl
    (fun (pm : ℚ × ℚ) eq =>
      let peak := if eq > pm.1 then eq else pm.1
      let dd := (eq - peak) / peak
      (peak, if dd < pm.2 then dd else pm.2))
    (series.headD 0, 0)).2

/-- The summary record returned by `getMetrics` (analysed fields). -/
structure Metrics where
  trades : ℕ
  totalFees : ℚ
  totalReturn : ℚ
  avgDaily : ℚ
  sharpe : ℝ
  maxDrawdown : ℚ

/-- `Backtest.getMetrics()`.  The source computes `stdRet` as a float and
tests it for truthiness (`stdRet ? … : 0`); since `stdRet = √variance ≥ 0`,
that test is equivalent to `variance ≠ 0`, which is how the branch is
expressed here to keep the underlying quantities rational. -/
noncomputable def Backtest.getMetrics (s : BacktestState) (intervalName : String) :
    Except String Metrics :=
  if s.equityCurve.length < 2 then
    .error "Backtest not run or equityCurve too short"
  else
    let series := equitySeries s.equityCurve
    let rets := periodRets series
    let finalEquity := (series.getLast?).getD 0
    let totalReturn := finalEquity / s.startCashBalance - 1
    let periodsPerYr := sharpePeriodsQ intervalName
    let meanRet := meanQ rets
    let varRet := meanQ (rets.map (fun r => (r - meanRet) ^ 2))
    let sharpe : ℝ :=
      if varRet = 0 then 0
      else ((meanRet : ℝ) / Real.sqrt varRet) * Real.sqrt (periodsPerYr : ℝ)
    .ok {
      trades := s.trades.length
      totalFees := s.totalFees
      totalReturn := totalReturn
      avgDaily := meanQ rets
      sharpe := sharpe
      maxDrawdown := maxDrawdownOf series }

/-! ### Association-list lemmas -/

theorem lookupA_setA_self {κ α : Type} [DecidableEq κ] (m : List (κ × α)) (k : κ) (v : α) :
    lookupA (setA m k v) k = some v := by
  induction m with
  | nil => simp [setA, lookupA]
  | cons e rest ih =>
      by_cases h : e.1 = k
      · simp [setA, h, lookupA]
      · simpa [setA, h, lookupA] using ih

theorem lookupA_setA_ne {κ α : Type} [DecidableEq κ] (m : List (κ × α)) (k k' : κ) (v : α)
    (h : k' ≠ k) : lookupA (setA m k v) k' = lookupA m k' := by
  have hkk' : ¬(k = k') := fun h' => h h'.symm
  induction m with
  | nil => simp [setA, lookupA, hkk']
  | cons e rest ih =>
      by_cases he : e.1 = k
      · subst he
        simp [setA, lookupA, hkk']
      · simp only [setA, if_neg he, lookupA]
        by_cases he' : e.1 = k'
        · simp [he']
        · simp [he', ih]

theorem lookupA_eraseA_self {κ α : Type} [DecidableEq κ] (m : List (κ × α)) (k : κ) :
    lookupA (eraseA m k) k = none := by
  induction m with
  | nil => simp [eraseA, lookupA]
  | cons e rest ih =>
      by_cases h : e.1 = k
      · simpa [eraseA, h, lookupA] using ih
      · simpa [eraseA, h, lookupA] using ih

theorem lookupA_eraseA_ne {κ α : Type} [DecidableEq κ] (m : List (κ × α)) (k k' : κ)
    (h : k' ≠ k) : lookupA (eraseA m k) k' = lookupA m k' := by
  have hkk' : ¬(k = k') := fun h' => h h'.symm
  induction m with
  | nil => simp [eraseA, lookupA]
  | cons e rest ih =>
      by_cases he : e.1 = k
      · subst he
        simpa [eraseA, lookupA, hkk'] using ih
      · by_cases he' : e.1 = k'
        · simp [eraseA, List.filter_cons, lookupA, he, he', h]
        · simpa [eraseA, List.filter_cons, lookupA, he, he', h] using ih

theorem mem_setA {κ α : Type} [DecidableEq κ] (m : List (κ × α)) (k : κ) (v : α)
    (e : κ × α) (h : e ∈ setA m k v) : e = (k, v) ∨ e ∈ m := by
  induction m with
  | nil => simpa [setA] using h
  | cons f rest ih =>
      by_cases hf : f.1 = k
      · rcases (by simpa [setA, hf] using h) with h' | h'
        · exact Or.inl h'
        · exact Or.inr (List.mem_cons_of_mem _ h')
      · rcases (by simpa [setA, hf] using h) with h' | h'
        · exact Or.inr (by simp [h'])
        · rcases ih h' with h'' | h''
          · exact Or.inl h''
          · exact Or.inr (List.mem_cons_of_mem _ h'')

theorem mem_of_mem_eraseA {κ α : Type} [DecidableEq κ] (m : List (κ × α)) (k : κ)
    (e : κ × α) (h : e ∈ eraseA m k) : e ∈ m :=
  List.mem_of_mem_filter h

/-! ### List lemmas for the profit walk -/

/-- `slice(0, findIndex(p))` cuts exactly the longest prefix on which `p`
fails, also when `findIndex` returns `-1` (there `findIdx` returns the
length). -/
theorem take_findIdx_eq_takeWhile {α : Type} (p : α → Bool) (l : List α) :
    l.take (l.findIdx p) = l.takeWhile (fun a => !(p a)) := by
  induction l with
  | nil => simp
  | cons a rest ih =>
      cases hpa : p a with
      | true => simp [List.findIdx_cons, List.takeWhile_cons, hpa]
      | false => simp [List.findIdx_cons, List.takeWhile_cons, hpa, ih]

/-! ### Round-trip attribution, as the specification words it -/

/-- All swaps of one ticker, oldest first. -/
def tickerSwaps (swaps : List Swap) (t : String) : List Swap :=
  swaps.filter (fun w => decide (w.stockName = t))

/-- The suffix of a swap log strictly after its last SELL (the whole log
when it has no SELL). -/
def sinceLastSell (l : List Swap) : List Swap :=
  (l.reverse.takeWhile (fun w => !(decide (w.side = Side.sell)))).reverse

/-- The BUY swaps of `t` recorded after its most recent SELL. -/
def matchedBuys (swaps : List Swap) (t : String) : List Swap :=
  (sinceLastSell (tickerSwaps swaps t)).filter (fun w => decide (w.side = Side.buy))

/-- `matchedCost = Σ qty_i × price_i` over the matched buys. -/
def matchedCost (swaps : List Swap) (t : String) : ℚ :=
  ((matchedBuys swaps t).map (fun w => w.quantity * w.price)).sum

/-- `matchedFees = Σ fee_i` over the matched buys. -/
def matchedFees (swaps : List Swap) (t : String) : ℚ :=
  ((matchedBuys swaps t).map (fun w => w.fee)).sum

/-- The `buys` list computed inside `sell` is the reverse of the
specification-side `matchedBuys`. -/
theorem sell_buys_eq (swaps : List Swap) (t : String) :
    ((swaps.reverse.filter (fun w => decide (w.stockName = t))).take
      ((swaps.reverse.filter (fun w => decide (w.stockName = t))).findIdx
        (fun w => decide (w.side = Side.sell)))).filter
      (fun w => decide (w.side = Side.buy))
    = (matchedBuys swaps t).reverse := by
  rw [List.filter_reverse, take_findIdx_eq_takeWhile]
  rw [matchedBuys, sinceLastSell, tickerSwaps, List.filter_reverse,
    List.reverse_reverse]

/-- Sums over the in-code `buys` list agree with the specification sums. -/
theorem sell_cost_sum_eq (swaps : List Swap) (t : String) (f : Swap → ℚ) :
    ((((swaps.reverse.filter (fun w => decide (w.stockName = t))).take
        ((swaps.reverse.filter (fun w => decide (w.stockName = t))).findIdx
          (fun w => decide (w.side = Side.sell)))).filter
        (fun w => decide (w.side = Side.buy))).map f).sum
    = ((matchedBuys swaps t).map f).sum := by
  rw [sell_buys_eq, List.map_reverse, List.sum_reverse]

/-! ### Claim C1 -/

/-- C1 (amended): a successful `sell` pushes exactly one Trade whose profit
is `proceeds − matchedCost − matchedFees − sellFee` with the matched buys
taken after the ticker's most recent SELL swap, whose `profitPercent` is
`profit / matchedCost` when `matchedCost ≠ 0` and `0` otherwise (the source
tests `cost` for truthiness, not for positivity), and the sell's own swap
record is appended only afterwards, so the walk excludes it; in particular
`profit + matchedCost + matchedFees + sellFee = proceeds` exactly. -/
theorem C1_sell_profit_attribution (fees : Fees) (s : BacktestState) (t : String)
    (q p : ℚ) (ts : ℤ) (s' : BacktestState)
    (h : Backtest.sell fees s t q p ts = .ok s') :
    ∃ tr : Trade,
      s'.trades = s.trades ++ [tr]
      ∧ tr.profit = q * p - matchedCost s.swaps t - matchedFees s.swaps t
          - fees q p Side.sell
      ∧ tr.profitPercent =
          (if matchedCost s.swaps t = 0 then 0 else tr.profit / matchedCost s.swaps t)
      ∧ tr.profit + matchedCost s.swaps t + matchedFees s.swaps t
          + fees q p Side.sell = q * p
      ∧ s'.swaps = s.swaps ++ [⟨Side.sell, t, q, p, fees q p Side.sell, ts⟩] := by
  simp only [Backtest.sell] at h
  split_ifs at h with h1 h2
  all_goals
    rw [Except.ok.injEq] at h
    subst h
    refine ⟨_, rfl,
      by simp only [sell_cost_sum_eq, matchedCost, matchedFees], ?_,
      by simp only [sell_cost_sum_eq, matchedCost, matchedFees]; ring, rfl⟩
    simp only [matchedCost, matchedFees]
    simp only [sell_cost_sum_eq] at *
    split <;> simp_all

/-- Input state for the C1 witness: two shares of A bought at 3. -/
def c1wS0 : BacktestState :=
  { initState 100 with
    stockBalances := [("A", 2)]
    swaps := [⟨Side.buy, "A", 2, 3, 0, 0⟩] }

/-- Output state for the C1 witness. -/
def c1wS1 : BacktestState :=
  { cashBalance := 110
    startCashBalance := 100
    stockBalances := []
    holdSince := []
    stockPrices := [("A", 5)]
    stockFeatures := []
    swaps := [⟨Side.buy, "A", 2, 3, 0, 0⟩, ⟨Side.sell, "A", 2, 5, 0, 7⟩]
    trades := [⟨"A", 2, 5, 7, 0, 4, 2 / 3, none⟩]
    equityCurve := []
    delistCounter := []
    totalFees := 0 }

/-- C1 witness: selling the two A shares at 5 yields the expected trade. -/
theorem C1_witness :
    Backtest.sell feeFree c1wS0 "A" 2 5 7 = .ok c1wS1
    ∧ ∃ tr : Trade,
        c1wS1.trades = c1wS0.trades ++ [tr]
        ∧ tr.profit = 2 * 5 - matchedCost c1wS0.swaps "A" - matchedFees c1wS0.swaps "A"
            - feeFree 2 5 Side.sell
        ∧ tr.profitPercent =
            (if matchedCost c1wS0.swaps "A" = 0 then 0
             else tr.profit / matchedCost c1wS0.swaps "A")
        ∧ tr.profit + matchedCost c1wS0.swaps "A" + matchedFees c1wS0.swaps "A"
            + feeFree 2 5 Side.sell = 2 * 5
        ∧ c1wS1.swaps = c1wS0.swaps ++ [⟨Side.sell, "A", 2, 5, feeFree 2 5 Side.sell, 7⟩] :=
  ⟨by norm_num [Backtest.sell, feeFree, c1wS0, c1wS1, initState, lookupA, setA, eraseA,
      List.filter, List.findIdx, List.findIdx.go],
   C1_sell_profit_attribution feeFree c1wS0 "A" 2 5 7 c1wS1
     (by norm_num [Backtest.sell, feeFree, c1wS0, c1wS1, initState, lookupA, setA, eraseA,
        List.filter, List.findIdx, List.findIdx.go])⟩

/-- State after `buy("A", 1, -5)` from 100 cash with the fee-free broker
(the engine accepts a negative price, charging `cost = -5`). -/
def c1cexS1 : BacktestState :=
  { cashBalance := 105
    startCashBalance := 100
    stockBalances := [("A", 1)]
    holdSince := [("A", 0)]
    stockPrices := [("A", -5)]
    stockFeatures := []
    swaps := [⟨Side.buy, "A", 1, -5, 0, 0⟩]
    trades := []
    equityCurve := []
    delistCounter := []
    totalFees := 0 }

/-- C1 counterexample to the claim as stated: after a buy at price −5 the
matched cost is −5, which is not `> 0`, yet the closing sell records
`profitPercent = −3`, not the `0` the claim requires for a non-positive
matched cost (the source divides whenever `matchedCost ≠ 0`). -/
theorem C1_counterexample :
    Backtest.buy feeFree (initState 100) "A" 1 (-5) 0 none = .ok c1cexS1
    ∧ matchedCost c1cexS1.swaps "A" = -5
    ∧ ¬((0 : ℚ) < matchedCost c1cexS1.swaps "A")
    ∧ (Backtest.sell feeFree c1cexS1 "A" 1 10 1).map
        (fun s => s.trades.map Trade.profitPercent) = .ok [-3]
    ∧ (-3 : ℚ) ≠ 0 := by
  refine ⟨?_, ?_, by norm_num [c1cexS1, matchedCost, matchedBuys, sinceLastSell,
    tickerSwaps, List.filter], ?_, by norm_num⟩
  · norm_num [Backtest.buy, feeFree, initState, lookupA, setA, c1cexS1]
  · norm_num [c1cexS1, matchedCost, matchedBuys, sinceLastSell, tickerSwaps, List.filter]
  · norm_num [Backtest.sell, feeFree, c1cexS1, lookupA, setA, eraseA,
      List.filter, List.findIdx, List.findIdx.go, Except.map]

/-! ### Claim C2 -/

/-- C2: `buy` fails with `InsufficientCash` exactly when
`cost + fee > cashBalance`; the cash check is the first statement of `buy`,
before any field update, so a failing call leaves the state untouched (the
embedding returns the input state unchanged by construction). -/
theorem C2_buy_insufficient_cash (fees : Fees) (s : BacktestState) (t : String)
    (q p : ℚ) (ts : ℤ) (f : Option (List ℚ)) :
    Backtest.buy fees s t q p ts f = .error .insufficientCash
    ↔ s.cashBalance < q * p + fees q p Side.buy := by
  simp only [Backtest.buy]
  split <;> simp_all

/-- C2 witness: buying 1 share at 5 with only 1 in cash is rejected. -/
theorem C2_witness :
    Backtest.buy feeFree (initState 1) "A" 1 5 0 none = .error .insufficientCash :=
  (C2_buy_insufficient_cash feeFree (initState 1) "A" 1 5 0 none).mpr
    (by norm_num [initState, feeFree])

/-! ### Claim C5 -/

/-- C5 (code bug): on the preloaded path of the single-symbol `getCandles`,
every call fails — `getLast` throws instead of reporting a short window,
and both return statements call `resolve`, which is not in scope there —
so no call ever returns the claimed newest-first window. -/
theorem C5_preloaded_getCandles_never_succeeds (buffer : List Candle)
    (count : ℕ) (ts : ℚ) :
    (Backtest.getCandlesPreloaded buffer count ts).isOk = false := by
  unfold Backtest.getCandlesPreloaded
  cases hgl : CandleBuffer.getLast buffer count ts with
  | error e => simp [Except.isOk, Except.toBool]
  | ok c =>
      by_cases h : c.length < count <;> simp [h, Except.isOk, Except.toBool]

/-! ### Claim C7 -/

/-- C7: the Alpaca policy charges zero commission; on sells a FINRA TAF of
`min(min(qty, 50205) × 0.000195, 9.79)` rounded up to the cent; a CAT fee
of `qty × 0.0000265` on every execution; plus `notional × slippage`. -/
theorem C7_alpaca_fees (slippage q p : ℚ) :
    Alpaca.calculateFees slippage q p Side.sell
      = ((⌈(min ((min q 50205) * (195 / 1000000)) (979 / 100)) * 100⌉ : ℤ) : ℚ) / 100
        + q * (265 / 10000000) + q * p * slippage
    ∧ Alpaca.calculateFees slippage q p Side.buy
      = q * (265 / 10000000) + q * p * slippage := by
  constructor <;> simp [Alpaca.calculateFees]

/-! ### Claim C8 -/

/-- C8 (amended): no `InvalidOrder` validation exists.  `pushCandle`
appends unconditionally — a timestamp at or below the previous one is
accepted; a buy succeeds whenever `cost + fee ≤ cashBalance`, and a sell
whenever the balance is non-zero and at least the quantity, with no sign
check on quantity or price. -/
theorem C8_no_invalid_order_validation :
    (∀ (s : Stock) (c : Candle), (s.pushCandle c).size = s.size + 1)
    ∧ (∀ (fees : Fees) (s : BacktestState) (t : String) (q p : ℚ) (ts : ℤ)
        (f : Option (List ℚ)), q * p + fees q p Side.buy ≤ s.cashBalance →
        (Backtest.buy fees s t q p ts f).isOk = true)
    ∧ (∀ (fees : Fees) (s : BacktestState) (t : String) (q p : ℚ) (ts : ℤ),
        (lookupA s.stockBalances t).getD 0 ≠ 0 →
        q ≤ (lookupA s.stockBalances t).getD 0 →
        (Backtest.sell fees s t q p ts).isOk = true) := by
  refine ⟨fun s c => ?_, fun fees s t q p ts f h => ?_, fun fees s t q p ts h1 h2 => ?_⟩
  · simp [Stock.pushCandle, Stock.size]
  · simp only [Backtest.buy]
    rw [if_neg (not_lt.mpr h)]
    rfl
  · simp only [Backtest.sell]
    rw [if_neg h1, if_neg (not_lt.mpr h2)]
    rfl

/-- C8 witness: a concrete instance of each conjunct. -/
theorem C8_witness :
    ((StockRunner.Stock.pushCandle
        { name := "X", volumes := [1], opens := [1], closes := [1], highs := [1],
          lows := [1], timestamps := [10], transactions := [0],
          timestampIndex := [(10, 0)], granularity := 86400000 }
        ⟨1, 1, 1, 1, 1, 0, 5⟩).size = 2)
    ∧ (Backtest.buy feeFree (initState 100) "B" (-1) 5 0 none).isOk = true
    ∧ (Backtest.sell feeFree
        { initState 100 with stockBalances := [("B", 2)] } "B" (-1) 5 0).isOk = true :=
  ⟨C8_no_invalid_order_validation.1 _ _,
   C8_no_invalid_order_validation.2.1 feeFree (initState 100) "B" (-1) 5 0 none
     (by norm_num [feeFree, initState]),
   C8_no_invalid_order_validation.2.2 feeFree
     { initState 100 with stockBalances := [("B", 2)] } "B" (-1) 5 0
     (by norm_num [initState, lookupA]) (by norm_num [initState, lookupA])⟩

/-- C8 counterexample to the claim as stated: a candle with timestamp 5 is
pushed after one with timestamp 10 and is simply appended (no failure
channel exists), and a buy with negative quantity succeeds instead of
failing with `InvalidOrder`. -/
theorem C8_counterexample :
    (StockRunner.Stock.pushCandle
        { name := "X", volumes := [1], opens := [1], closes := [1], highs := [1],
          lows := [1], timestamps := [10], transactions := [0],
          timestampIndex := [(10, 0)], granularity := 86400000 }
        ⟨1, 1, 1, 1, 1, 0, 5⟩).timestamps = [10, 5]
    ∧ (Backtest.buy feeFree (initState 100) "A" (-1) 5 0 none).isOk = true := by
  constructor
  · norm_num [Stock.pushCandle]
  · norm_num [Backtest.buy, feeFree, initState, Except.isOk, Except.toBool]

/-! ### Claim C9 -/

theorem mem_zipWith {α β γ : Type} {f : α → β → γ} :
    ∀ {l1 : List α} {l2 : List β} {y : γ}, y ∈ List.zipWith f l1 l2 →
      ∃ a ∈ l1, ∃ b ∈ l2, y = f a b := by
  intro l1
  induction l1 with
  | nil => intro l2 y h; simp at h
  | cons a rest ih =>
      intro l2 y h
      cases l2 with
      | nil => simp at h
      | cons b rest2 =>
          rcases List.mem_cons.mp h with rfl | h'
          · exact ⟨a, List.mem_cons_self _ _, b, List.mem_cons_self _ _, rfl⟩
          · rcases ih h' with ⟨a', ha', b', hb', rfl⟩
            exact ⟨a', List.mem_cons_of_mem _ ha', b', List.mem_cons_of_mem _ hb', rfl⟩

theorem varRetOf_nonneg (s : BacktestState) : 0 ≤ varRetOf s := by
  rw [varRetOf, meanQ]
  apply div_nonneg
  · apply List.sum_nonneg
    intro x hx
    rcases List.mem_map.mp hx with ⟨r, _, rfl⟩
    exact sq_nonneg _
  · exact Nat.cast_nonneg _

/-- Every element of the equity series of a constant-equity curve is that
constant. -/
theorem equitySeries_const (ec : List (ℤ × ℚ × ℚ)) (c : ℚ)
    (h : ∀ e ∈ ec, e.2.1 = c) : ∀ y ∈ equitySeries ec, y = c := by
  intro y hy
  rw [equitySeries] at hy
  rcases List.mem_map.mp hy with ⟨e, he, rfl⟩
  exact h e ((List.mergeSort_perm ec _).mem_iff.mp he)

theorem equitySeries_length (ec : List (ℤ × ℚ × ℚ)) :
    (equitySeries ec).length = ec.length := by
  rw [equitySeries, List.length_map, (List.mergeSort_perm ec _).length_eq]

/-- All period returns of a constant positive series vanish. -/
theorem periodRets_const (l : List ℚ) (c : ℚ) (hc : c ≠ 0)
    (h : ∀ y ∈ l, y = c) : ∀ r ∈ periodRets l, r = 0 := by
  intro r hr
  rw [periodRets] at hr
  rcases mem_zipWith hr with ⟨a, ha, b, hb, rfl⟩
  rw [h a ha, h b (List.mem_of_mem_tail hb), div_self hc]
  ring

/-- The max-drawdown fold stays at `(c, 0)` on a constant positive series. -/
theorem maxDD_fold_const (c : ℚ) (hc : 0 < c) :
    ∀ l : List ℚ, (∀ y ∈ l, y = c) →
      (l.foldl
        (fun (pm : ℚ × ℚ) eq =>
          let peak := if eq > pm.1 then eq else pm.1
          let dd := (eq - peak) / peak
          (peak, if dd < pm.2 then dd else pm.2))
        (c, 0)) = (c, 0) := by
  intro l
  induction l with
  | nil => intro _; rfl
  | cons y rest ih =>
      intro h
      rw [List.foldl_cons]
      have hy : y = c := h y (List.mem_cons_self _ _)
      subst hy
      have hinit : (let peak := if y > (y, (0 : ℚ)).1 then y else (y, (0 : ℚ)).1
          let dd := (y - peak) / peak
          (peak, if dd < (y, (0 : ℚ)).2 then dd else (y, (0 : ℚ)).2)) = ((y : ℚ), (0 : ℚ)) := by
        simp
      rw [hinit]
      exact ih (fun z hz => h z (List.mem_cons_of_mem _ hz))

theorem headD_const (l : List ℚ) (c : ℚ) (hne : l ≠ [])
    (h : ∀ y ∈ l, y = c) : l.headD 0 = c := by
  cases l with
  | nil => exact absurd rfl hne
  | cons a rest => exact h a (List.mem_cons_self _ _)

theorem getLastD_const (l : List ℚ) (c : ℚ) (hne : l ≠ [])
    (h : ∀ y ∈ l, y = c) : (l.getLast?).getD 0 = c := by
  rw [List.getLast?_eq_getLast l hne]
  exact h _ (List.getLast_mem hne)

/-- C9: for an equity curve of length at least 2, the annualised Sharpe is
`(meanRet / stdRet) · √periodsPerYear` when the population standard
deviation of the period returns is positive and `0` when it vanishes; and
a run that never trades, with equity constantly equal to the (positive)
starting cash, yields a zero trade count, zero fees, zero total return,
zero Sharpe and zero max drawdown. -/
theorem C9_metrics :
    (∀ (s : BacktestState) (iv : String), 2 ≤ s.equityCurve.length →
      (0 < stdRetOf s →
        (Backtest.getMetrics s iv).map Metrics.sharpe
          = .ok (((meanRetOf s : ℝ)) / stdRetOf s * Real.sqrt ((sharpePeriodsQ iv : ℚ) : ℝ)))
      ∧ (stdRetOf s = 0 →
        (Backtest.getMetrics s iv).map Metrics.sharpe = .ok 0))
    ∧ (∀ (s : BacktestState) (iv : String) (c : ℚ), 0 < c → s.trades = [] →
        s.totalFees = 0 → s.startCashBalance = c →
        (∀ e ∈ s.equityCurve, e.2.1 = c) → 2 ≤ s.equityCurve.length →
        (Backtest.getMetrics s iv).map
            (fun m => (m.trades, m.totalFees, m.totalReturn, m.maxDrawdown))
          = .ok (0, 0, 0, 0)
        ∧ (Backtest.getMetrics s iv).map Metrics.sharpe = .ok 0) := by
  constructor
  · intro s iv hlen
    have hguard : ¬(s.equityCurve.length < 2) := by omega
    constructor
    · intro hstd
      have hvar : ¬(varRetOf s = 0) := by
        intro h0
        rw [stdRetOf, h0] at hstd
        simp at hstd
      simp only [Backtest.getMetrics]
      rw [if_neg hguard]
      simp only [Except.map]
      rw [if_neg (by simpa [varRetOf] using hvar)]
      simp only [meanRetOf, varRetOf, stdRetOf]
    · intro hstd
      have hvar : varRetOf s = 0 := by
        have := (Real.sqrt_eq_zero (by exact_mod_cast varRetOf_nonneg s)).mp hstd
        exact_mod_cast this
      simp only [Backtest.getMetrics]
      rw [if_neg hguard]
      simp only [Except.map]
      rw [if_pos (by simpa [varRetOf] using hvar)]
  · intro s iv c hc htr hfees hstart hconst hlen
    have hguard : ¬(s.equityCurve.length < 2) := by omega
    have hcne : c ≠ 0 := ne_of_gt hc
    have hser : ∀ y ∈ equitySeries s.equityCurve, y = c := equitySeries_const _ c hconst
    have hserne : equitySeries s.equityCurve ≠ [] := by
      intro h0
      have := equitySeries_length s.equityCurve
      rw [h0] at this
      simp at this
      omega
    have hrets : ∀ r ∈ periodRets (equitySeries s.equityCurve), r = 0 :=
      periodRets_const _ c hcne hser
    have hsum : (periodRets (equitySeries s.equityCurve)).sum = 0 :=
      List.sum_eq_zero hrets
    have hmean : meanQ (periodRets (equitySeries s.equityCurve)) = 0 := by
      rw [meanQ, hsum, zero_div]
    have hvarsum : ((periodRets (equitySeries s.equityCurve)).map
        (fun r => (r - meanQ (periodRets (equitySeries s.equityCurve))) ^ 2)).sum = 0 := by
      apply List.sum_eq_zero
      intro x hx
      rcases List.mem_map.mp hx with ⟨r, hr, rfl⟩
      rw [hrets r hr, hmean]
      ring
    have hvar : meanQ ((periodRets (equitySeries s.equityCurve)).map
        (fun r => (r - meanQ (periodRets (equitySeries s.equityCurve))) ^ 2)) = 0 := by
      rw [meanQ, hvarsum, zero_div]
    have hlast : ((equitySeries s.equityCurve).getLast?).getD 0 = c :=
      getLastD_const _ c hserne hser
    have hmaxdd : maxDrawdownOf (equitySeries s.equityCurve) = 0 := by
      rw [maxDrawdownOf, headD_const _ c hserne hser, maxDD_fold_const c hc _ hser]
    constructor
    · simp only [Backtest.getMetrics]
      rw [if_neg hguard]
      simp only [Except.map, Except.ok.injEq]
      rw [htr, hfees, hstart, hlast, hmaxdd, div_self hcne]
      simp
    · simp only [Backtest.getMetrics]
      rw [if_neg hguard]
      simp only [Except.map, Except.ok.injEq]
      rw [if_pos hvar]

/-- Concrete never-trading state for the C9 witness. -/
def c9wS : BacktestState :=
  { initState 100 with equityCurve := [(0, 100, 100), (1, 100, 100)] }

/-- C9 witness: the constant-equity two-point curve yields all-zero
metrics and zero Sharpe. -/
theorem C9_witness :
    (Backtest.getMetrics c9wS "1d").map
        (fun m => (m.trades, m.totalFees, m.totalReturn, m.maxDrawdown))
      = .ok (0, 0, 0, 0)
    ∧ (Backtest.getMetrics c9wS "1d").map Metrics.sharpe = .ok 0 :=
  C9_metrics.2 c9wS "1d" 100 (by norm_num) (by rfl) (by rfl) (by rfl)
    (by
      intro e he
      simp only [c9wS, initState] at he
      rcases List.mem_cons.mp he with rfl | he'
      · rfl
      · rcases List.mem_cons.mp he' with rfl | he''
        · rfl
        · simp at he'')
    (by norm_num [c9wS, initState])

/-! ### Claim C10 -/

/-- C10: a successful sell leaving a non-zero remaining balance keeps
`holdSince` and `stockFeatures` untouched (they are deleted only when the
balance reaches exactly zero), and a sell never changes the
`stockBalances`, `stockPrices`, `holdSince` or `stockFeatures` entry of any
other ticker. -/
theorem C10_sell_frame (fees : Fees) (s : BacktestState) (t : String)
    (q p : ℚ) (ts : ℤ) (s' : BacktestState)
    (h : Backtest.sell fees s t q p ts = .ok s') :
    ((lookupA s.stockBalances t).getD 0 - q ≠ 0 →
      s'.holdSince = s.holdSince ∧ s'.stockFeatures = s.stockFeatures)
    ∧ ∀ u, u ≠ t →
        lookupA s'.stockBalances u = lookupA s.stockBalances u
        ∧ lookupA s'.stockPrices u = lookupA s.stockPrices u
        ∧ lookupA s'.holdSince u = lookupA s.holdSince u
        ∧ lookupA s'.stockFeatures u = lookupA s.stockFeatures u := by
  simp only [Backtest.sell] at h
  split_ifs at h with h1 h2 hz hc
  all_goals
    rw [Except.ok.injEq] at h
    subst h
    refine ⟨fun hrem => ?_, fun u hu => ?_⟩
    · first
        | exact absurd hz hrem
        | exact ⟨rfl, rfl⟩
    · exact ⟨by simp [lookupA_eraseA_ne _ _ _ hu, lookupA_setA_ne _ _ _ _ hu],
        by simp [lookupA_setA_ne _ _ _ _ hu],
        by simp [lookupA_eraseA_ne _ _ _ hu],
        by simp [lookupA_eraseA_ne _ _ _ hu]⟩

/-- Input state for the C10 witness: positions in A and B. -/
def c10wS0 : BacktestState :=
  { initState 0 with
    stockBalances := [("A", 5), ("B", 7)]
    holdSince := [("A", 1), ("B", 2)]
    stockPrices := [("A", 3), ("B", 4)]
    stockFeatures := [("A", [1]), ("B", [2])] }

/-- Output state for the C10 witness: 2 of 5 A shares sold at 10. -/
def c10wS1 : BacktestState :=
  { cashBalance := 20
    startCashBalance := 0
    stockBalances := [("A", 3), ("B", 7)]
    holdSince := [("A", 1), ("B", 2)]
    stockPrices := [("A", 10), ("B", 4)]
    stockFeatures := [("A", [1]), ("B", [2])]
    swaps := [⟨Side.sell, "A", 2, 10, 0, 9⟩]
    trades := [⟨"A", 2, 10, 9, 0, 20, 0, some [1]⟩]
    equityCurve := []
    delistCounter := []
    totalFees := 0 }

/-! ### Claim C3 -/

theorem lookupA_mem {κ α : Type} [DecidableEq κ] (m : List (κ × α)) (k : κ) (v : α)
    (h : lookupA m k = some v) : (k, v) ∈ m := by
  induction m with
  | nil => simp [lookupA] at h
  | cons e rest ih =>
      by_cases he : e.1 = k
      · rw [lookupA, if_pos he] at h
        injection h with h2
        have hkv : (k, v) = e := by rw [← he, ← h2]
        rw [hkv]
        exact List.mem_cons_self _ _
      · rw [lookupA, if_neg he] at h
        exact List.mem_cons_of_mem _ (ih h)

theorem mem_eraseA {κ α : Type} [DecidableEq κ] (m : List (κ × α)) (k : κ)
    (e : κ × α) (h : e ∈ eraseA m k) : e.1 ≠ k ∧ e ∈ m := by
  have h' := List.mem_filter.mp h
  exact ⟨by simpa using h'.2, h'.1⟩

/-- The quantity of an order. -/
def Op.qty : Op → ℚ
  | .buyOp _ q _ _ _ => q
  | .sellOp _ q _ _ => q

/-- A sell order whose broker fee does not exceed its proceeds (vacuous for
buys, whose fee is already covered by the cash check). -/
def sellFeeOk (fees : Fees) : Op → Prop
  | .sellOp _ q p _ => fees q p Side.sell ≤ q * p
  | .buyOp _ _ _ _ _ => True

theorem buy_preserves_inv (fees : Fees) (s : BacktestState) (t : String)
    (q p : ℚ) (ts : ℤ) (f : Option (List ℚ)) (s' : BacktestState)
    (h : Backtest.buy fees s t q p ts f = .ok s') (hq : 0 < q)
    (hbal : ∀ e ∈ s.stockBalances, 0 < e.2) :
    0 ≤ s'.cashBalance ∧ ∀ e ∈ s'.stockBalances, 0 < e.2 := by
  simp only [Backtest.buy] at h
  split_ifs at h with hlt
  rw [Except.ok.injEq] at h
  subst h
  push_neg at hlt
  constructor
  · simpa using by linarith
  · intro e he
    rcases mem_setA _ _ _ _ he with rfl | he'
    · have hold : 0 ≤ (lookupA s.stockBalances t).getD 0 := by
        cases hv : lookupA s.stockBalances t with
        | none => simp
        | some v => simpa using le_of_lt (hbal _ (lookupA_mem _ _ _ hv))
      simpa using by linarith
    · exact hbal _ he'

/-- Entries of a balances map positive after an update with a positive
value. -/
theorem pos_of_mem_setA {κ : Type} [DecidableEq κ] {m : List (κ × ℚ)} {t : κ}
    {v : ℚ} {e : κ × ℚ} (hbal : ∀ x ∈ m, 0 < x.2) (hv : 0 < v)
    (he : e ∈ setA m t v) : 0 < e.2 := by
  rcases mem_setA _ _ _ _ he with heq | hm
  · rw [heq]
    exact hv
  · exact hbal _ hm

/-- Deleting the freshly-updated key gives back entries of the original
map. -/
theorem mem_of_mem_eraseA_setA {κ α : Type} [DecidableEq κ] {m : List (κ × α)}
    {t : κ} {v : α} {e : κ × α} (he : e ∈ eraseA (setA m t v) t) : e ∈ m := by
  rcases mem_eraseA _ _ _ he with ⟨hne, he'⟩
  rcases mem_setA _ _ _ _ he' with heq | hm
  · exact absurd (by rw [heq]) hne
  · exact hm

theorem sell_preserves_inv (fees : Fees) (s : BacktestState) (t : String)
    (q p : ℚ) (ts : ℤ) (s' : BacktestState)
    (h : Backtest.sell fees s t q p ts = .ok s') (_hq : 0 < q)
    (hfee : fees q p Side.sell ≤ q * p)
    (hcash : 0 ≤ s.cashBalance) (hbal : ∀ e ∈ s.stockBalances, 0 < e.2) :
    0 ≤ s'.cashBalance ∧ ∀ e ∈ s'.stockBalances, 0 < e.2 := by
  simp only [Backtest.sell] at h
  split_ifs at h with h1 h2 hz hc hc2
  all_goals
    rw [Except.ok.injEq] at h
    subst h
    refine ⟨by simpa using by linarith, fun e he => ?_⟩
    first
      | exact hbal _ (mem_of_mem_eraseA_setA he)
      | exact pos_of_mem_setA hbal
          (lt_of_le_of_ne (by linarith [le_of_not_lt h2]) (Ne.symm hz)) he

theorem runOps_preserves_inv (fees : Fees) : ∀ (ops : List Op) (s m : BacktestState),
    (∀ op ∈ ops, 0 < op.qty) → (∀ op ∈ ops, sellFeeOk fees op) →
    0 ≤ s.cashBalance → (∀ e ∈ s.stockBalances, 0 < e.2) →
    runOps fees s ops = .ok m →
    0 ≤ m.cashBalance ∧ ∀ e ∈ m.stockBalances, 0 < e.2 := by
  intro ops
  induction ops with
  | nil =>
      intro s m _ _ hcash hbal h
      rw [runOps, Except.ok.injEq] at h
      subst h
      exact ⟨hcash, hbal⟩
  | cons op rest ih =>
      intro s m hq hf hcash hbal h
      rw [runOps] at h
      cases happly : applyOp fees s op with
      | error e => rw [happly] at h; exact Except.noConfusion h
      | ok s1 =>
          rw [happly] at h
          have hstep : 0 ≤ s1.cashBalance ∧ ∀ e ∈ s1.stockBalances, 0 < e.2 := by
            cases op with
            | buyOp t q p ts f =>
                exact buy_preserves_inv fees s t q p ts f s1 happly
                  (by simpa [Op.qty] using hq _ (List.mem_cons_self _ _))
                  hbal
            | sellOp t q p ts =>
                exact sell_preserves_inv fees s t q p ts s1 happly
                  (by simpa [Op.qty] using hq _ (List.mem_cons_self _ _))
                  (by simpa [sellFeeOk] using hf _ (List.mem_cons_self _ _))
                  hcash hbal
          exact ih s1 m (fun o ho => hq o (List.mem_cons_of_mem _ ho))
            (fun o ho => hf o (List.mem_cons_of_mem _ ho)) hstep.1 hstep.2 h

/-- C3 (amended): from a start balance `c ≥ 0`, any successful run of buys
and sells keeps `cashBalance ≥ 0` and every `stockBalances` entry strictly
positive, provided each order has positive quantity and no sell is charged
a fee above its proceeds.  Since `ops` ranges over every prefix as well,
this holds after each operation.  Without the two provisos the invariant
fails (see the counterexample: the engine accepts non-positive quantities
and prices, and an Alpaca sell at price 0 charges a fee with no proceeds). -/
theorem C3_invariants (fees : Fees) (c : ℚ) (ops : List Op) (m : BacktestState)
    (hc : 0 ≤ c)
    (hq : ∀ op ∈ ops, 0 < op.qty)
    (hf : ∀ op ∈ ops, sellFeeOk fees op)
    (h : runOps fees (initState c) ops = .ok m) :
    0 ≤ m.cashBalance ∧ ∀ e ∈ m.stockBalances, 0 < e.2 :=
  runOps_preserves_inv fees ops (initState c) m hq hf (by simpa [initState] using hc)
    (by simp [initState]) h

/-- Final state of the C3 witness run: buy 1 A at 2, sell it at 5. -/
def c3wM : BacktestState :=
  { cashBalance := 13
    startCashBalance := 10
    stockBalances := []
    holdSince := []
    stockPrices := [("A", 5)]
    stockFeatures := []
    swaps := [⟨Side.buy, "A", 1, 2, 0, 0⟩, ⟨Side.sell, "A", 1, 5, 0, 1⟩]
    trades := [⟨"A", 1, 5, 1, 0, 3, 3 / 2, none⟩]
    equityCurve := []
    delistCounter := []
    totalFees := 0 }

/-- C3 witness: a concrete fee-free round trip from 10 in cash. -/
theorem C3_witness :
    runOps feeFree (initState 10)
      [Op.buyOp "A" 1 2 0 none, Op.sellOp "A" 1 5 1] = .ok c3wM
    ∧ 0 ≤ c3wM.cashBalance ∧ ∀ e ∈ c3wM.stockBalances, 0 < e.2 := by
  have h : runOps feeFree (initState 10)
      [Op.buyOp "A" 1 2 0 none, Op.sellOp "A" 1 5 1] = .ok c3wM := by
    norm_num [runOps, applyOp, Backtest.buy, Backtest.sell, feeFree, initState, c3wM,
      lookupA, setA, eraseA, List.filter, List.findIdx, List.findIdx.go]
  refine ⟨h, C3_invariants feeFree 10 _ c3wM (by norm_num) ?_ ?_ h⟩
  · intro op hop
    simp only [List.mem_cons, List.mem_singleton, List.not_mem_nil, or_false] at hop
    rcases hop with rfl | rfl <;> norm_num [Op.qty]
  · intro op hop
    simp only [List.mem_cons, List.mem_singleton, List.not_mem_nil, or_false] at hop
    rcases hop with rfl | rfl <;> simp [sellFeeOk, feeFree]

/-- C3 counterexample to the claim as stated: (a) with the Alpaca broker
and slippage 0, starting from 0.005 in cash, buying 100 shares at price 0
(fee 0.00265) and selling them at price 0 (fee 0.02265, exceeding the zero
proceeds) are both accepted and leave `cashBalance = -0.0203 < 0`;
(b) a fee-free buy of -5 shares is accepted and leaves the entry
`stockBalances["A"] = -5`, which is not strictly positive. -/
theorem C3_counterexample :
    ((runOps (alpacaFees 0) (initState (1 / 200))
        [Op.buyOp "A" 100 0 0 none, Op.sellOp "A" 100 0 1]).map
      (fun s => s.cashBalance) = .ok (-203 / 10000)
    ∧ ¬(0 ≤ (-203 / 10000 : ℚ)))
    ∧ ((Backtest.buy feeFree (initState 100) "A" (-5) 10 0 none).map
        (fun s => lookupA s.stockBalances "A") = .ok (some (-5))
    ∧ ¬(0 < (-5 : ℚ))) := by
  have h39 : ((⌈(39 / 20 : ℚ)⌉ : ℤ) : ℚ) = 2 := by
    norm_cast
    rw [Int.ceil_eq_iff]
    constructor <;> norm_num
  have hbuyfee : alpacaFees 0 100 0 Side.buy = 53 / 20000 := by
    simp only [alpacaFees, Alpaca.calculateFees]
    rw [if_neg (by decide : ¬(Side.buy = Side.sell))]
    norm_num
  have hsellfee : alpacaFees 0 100 0 Side.sell = 453 / 20000 := by
    simp only [alpacaFees, Alpaca.calculateFees]
    rw [show (min ((min (100 : ℚ) 50205) * (195 / 1000000)) (979 / 100)) * 100 = 39 / 20 by
      norm_num [min_def]]
    norm_num [h39]
  refine ⟨⟨?_, by norm_num⟩, ⟨?_, by norm_num⟩⟩
  · norm_num [runOps, applyOp, Backtest.buy, Backtest.sell, hbuyfee, hsellfee,
      initState, lookupA, setA, eraseA, List.filter,
      List.findIdx, List.findIdx.go, Except.map]
  · norm_num [Backtest.buy, feeFree, initState, lookupA, setA, Except.map]

/-! ### Claim C4 -/

/-- What the binary-search loop guarantees: an exact hit in range, or the
insertion point `c` with everything below `c` strictly below `x` and
everything from `c` on strictly above `x`. -/
def bsOutSpec (T : List ℚ) (x : ℚ) (n : ℤ) : BsOut → Prop
  | .found m => 0 ≤ m ∧ m < n ∧ vQ T m = x
  | .stopped c => 0 ≤ c ∧ c ≤ n
      ∧ (∀ i : ℤ, 0 ≤ i → i < c → vQ T i < x)
      ∧ (∀ i : ℤ, c ≤ i → i < n → x < vQ T i)

theorem bsLoop_spec (T : List ℚ) (x : ℚ) (n : ℤ) (hn : n = T.length)
    (hsort : ∀ i j : ℤ, 0 ≤ i → i < j → j < n → vQ T i < vQ T j) :
    ∀ (fuel : ℕ) (l r : ℤ), 0 ≤ l → l - 1 ≤ r → r ≤ n - 1 →
      r - l + 2 ≤ (fuel : ℤ) →
      (∀ i : ℤ, 0 ≤ i → i < l → vQ T i < x) →
      (∀ i : ℤ, r < i → i < n → x < vQ T i) →
      bsOutSpec T x n (bsLoop T x fuel l r) := by
  intro fuel
  induction fuel with
  | zero =>
      intro l r h0 hlr1 hrn hfuel inv1 inv2
      exfalso
      push_cast at hfuel
      omega
  | succ k ih =>
      intro l r h0 hlr1 hrn hfuel inv1 inv2
      simp only [bsLoop]
      by_cases hlr : l ≤ r
      · rw [if_pos hlr]
        have hmidl : l ≤ (l + r) / 2 := by omega
        have hmidr : (l + r) / 2 ≤ r := by omega
        by_cases heq : vQ T ((l + r) / 2) = x
        · rw [if_pos heq]
          exact ⟨by omega, by omega, heq⟩
        · rw [if_neg heq]
          by_cases hlt : vQ T ((l + r) / 2) < x
          · rw [if_pos hlt]
            refine ih ((l + r) / 2 + 1) r (by omega) (by omega) hrn
              (by push_cast at hfuel ⊢; omega) ?_ inv2
            intro i hi0 hile
            by_cases hil : i < l
            · exact inv1 i hi0 hil
            · push_neg at hil
              rcases lt_or_eq_of_le (by omega : i ≤ (l + r) / 2) with him | him
              · exact lt_trans (hsort i ((l + r) / 2) hi0 him (by omega)) hlt
              · rw [him]
                exact hlt
          · rw [if_neg hlt]
            have hgt : x < vQ T ((l + r) / 2) :=
              lt_of_le_of_ne (not_lt.mp hlt) (fun hx => heq hx.symm)
            refine ih l ((l + r) / 2 - 1) h0 (by omega) (by omega)
              (by push_cast at hfuel ⊢; omega) inv1 ?_
            intro i hir hin
            by_cases hri : r < i
            · exact inv2 i hri hin
            · push_neg at hri
              rcases lt_or_eq_of_le (by omega : (l + r) / 2 ≤ i) with him | him
              · exact lt_trans hgt (hsort ((l + r) / 2) i (by omega) him hin)
              · rw [← him]
                exact hgt
      · rw [if_neg hlr]
        refine ⟨h0, by omega, inv1, fun i hil hin => inv2 i (by omega) hin⟩

/-- Strict sortedness of a list transfers to the integer-indexed view. -/
theorem sorted_vQ (T : List ℚ) (hs : T.Pairwise (· < ·)) :
    ∀ i j : ℤ, 0 ≤ i → i < j → j < (T.length : ℤ) → vQ T i < vQ T j := by
  intro i j hi hij hj
  have hjN : j.toNat < T.length := by omega
  have hiN : i.toNat < T.length := by omega
  have h := List.pairwise_iff_get.mp hs ⟨i.toNat, hiN⟩ ⟨j.toNat, hjN⟩ (by
    show i.toNat < j.toNat
    omega)
  rw [vQ, vQ, List.getD_eq_getElem T 0 hiN, List.getD_eq_getElem T 0 hjN]
  simpa using h

/-- C4 (amended): for a non-empty stock with strictly increasing
timestamps, `getIndex(ts)` with `ts` within the covered range returns the
index of the row whose timestamp is nearest to `ts` in absolute distance
(ties broken toward the later row) — that row's timestamp may exceed `ts`;
if `ts` precedes every row the result is `0`, and if it follows every row
the result is `size`. -/
theorem C4_getIndex_nearest (s : Stock) (x : ℚ)
    (hsync : s.timestamps.length = s.size)
    (hsort : s.timestamps.Pairwise (· < ·))
    (hpos : 1 ≤ s.size) :
    (vQ s.timestamps 0 ≤ x → x ≤ vQ s.timestamps ((s.size : ℤ) - 1) →
      0 ≤ s.getIndex x ∧ s.getIndex x < (s.size : ℤ)
      ∧ (∀ j : ℤ, 0 ≤ j → j < (s.size : ℤ) →
          |vQ s.timestamps (s.getIndex x) - x| ≤ |vQ s.timestamps j - x|)
      ∧ (∀ j : ℤ, 0 ≤ j → j < (s.size : ℤ) →
          |vQ s.timestamps j - x| = |vQ s.timestamps (s.getIndex x) - x| →
          j ≤ s.getIndex x))
    ∧ (x < vQ s.timestamps 0 → s.getIndex x = 0)
    ∧ (vQ s.timestamps ((s.size : ℤ) - 1) < x → s.getIndex x = (s.size : ℤ)) := by
  have hn : ((s.size : ℤ)) = (s.timestamps.length : ℤ) := by
    exact_mod_cast congrArg Nat.cast hsync.symm
  have hsortn : ∀ i j : ℤ, 0 ≤ i → i < j → j < (s.size : ℤ) →
      vQ s.timestamps i < vQ s.timestamps j := by
    intro i j hi hij hj
    exact sorted_vQ s.timestamps hsort i j hi hij (by omega)
  have hspec := bsLoop_spec s.timestamps x (s.size : ℤ) hn hsortn
    (s.size + 1) 0 ((s.size : ℤ) - 1) (by omega) (by omega) (by omega)
    (by push_cast; omega)
    (by intro i h1 h2; omega)
    (by intro i h1 h2; omega)
  unfold Stock.getIndex
  cases hout : bsLoop s.timestamps x (s.size + 1) 0 ((s.size : ℤ) - 1) with
  | found m =>
      rw [hout] at hspec
      simp only [hout]
      rcases hspec with ⟨hm0, hmn, hmx⟩
      refine ⟨fun hx0 hxn => ⟨hm0, hmn, ?_, ?_⟩, fun hlt => ?_, fun hgt => ?_⟩
      · intro j hj0 hjn
        rw [hmx]
        simp
      · intro j hj0 hjn habs
        rw [hmx] at habs
        simp only [sub_self, abs_zero, abs_eq_zero, sub_eq_zero] at habs
        by_contra hmj
        push_neg at hmj
        have := hsortn m j hm0 hmj hjn
        rw [hmx, habs] at this
        exact lt_irrefl x this
      · exfalso
        rcases lt_or_eq_of_le hm0 with hm' | hm'
        · have := hsortn 0 m (le_refl 0) hm' hmn
          rw [hmx] at this
          linarith
        · rw [← hm'] at hmx
          linarith [hmx]
      · exfalso
        rcases lt_or_eq_of_le (by omega : m ≤ (s.size : ℤ) - 1) with hm' | hm'
        · have := hsortn m ((s.size : ℤ) - 1) hm0 hm' (by omega)
          rw [hmx] at this
          linarith
        · rw [hm'] at hmx
          linarith [hmx]
  | stopped c =>
      rw [hout] at hspec
      simp only [hout]
      rcases hspec with ⟨hc0, hcn, hbelow, habove⟩
      have hrw : c - 1 + 1 = c := by ring
      refine ⟨fun hx0 hxn => ?_, fun hlt => ?_, fun hgt => ?_⟩
      · have hc1 : 1 ≤ c := by
          by_contra hcon
          have : x < vQ s.timestamps 0 := habove 0 (by omega) (by omega)
          linarith
        have hcn1 : c ≤ (s.size : ℤ) - 1 := by
          by_contra hcon
          have : vQ s.timestamps ((s.size : ℤ) - 1) < x :=
            hbelow ((s.size : ℤ) - 1) (by omega) (by omega)
          linarith
        rw [if_pos ⟨by omega, by omega⟩, hrw]
        have ha : vQ s.timestamps (c - 1) < x := hbelow (c - 1) (by omega) (by omega)
        have hb : x < vQ s.timestamps c := habove c (le_refl c) (by omega)
        have hja : ∀ j : ℤ, 0 ≤ j → j ≤ c - 1 → vQ s.timestamps j ≤ vQ s.timestamps (c - 1) := by
          intro j hj0 hjc
          rcases lt_or_eq_of_le hjc with hj' | hj'
          · exact le_of_lt (hsortn j (c - 1) hj0 hj' (by omega))
          · rw [hj']
        have hjb : ∀ j : ℤ, c ≤ j → j < (s.size : ℤ) → vQ s.timestamps c ≤ vQ s.timestamps j := by
          intro j hjc hjn
          rcases lt_or_eq_of_le hjc with hj' | hj'
          · exact le_of_lt (hsortn c j (by omega) hj' hjn)
          · rw [hj']
        have habsa : |vQ s.timestamps (c - 1) - x| = x - vQ s.timestamps (c - 1) := by
          rw [abs_of_neg (by linarith)]
          ring
        have habsb : |vQ s.timestamps c - x| = vQ s.timestamps c - x :=
          abs_of_pos (by linarith)
        split_ifs with hd
        · refine ⟨by omega, by omega, ?_, ?_⟩
          · intro j hj0 hjn
            by_cases hjc : j ≤ c - 1
            · rw [habsa, abs_of_neg (by have := hja j hj0 hjc; linarith)]
              have := hja j hj0 hjc
              linarith
            · push_neg at hjc
              rw [habsa, abs_of_pos (by have := hjb j (by omega) hjn; linarith)]
              rw [habsa, habsb] at hd
              have := hjb j (by omega) hjn
              linarith
          · intro j hj0 hjn habs
            by_contra hcon
            push_neg at hcon
            have hjc : c ≤ j := by omega
            rw [habsa, abs_of_pos (by have := hjb j hjc hjn; linarith)] at habs
            rw [habsa, habsb] at hd
            have := hjb j hjc hjn
            linarith
        · push_neg at hd
          refine ⟨by omega, by omega, ?_, ?_⟩
          · intro j hj0 hjn
            by_cases hjc : j ≤ c - 1
            · rw [habsb, abs_of_neg (by have := hja j hj0 hjc; linarith)]
              rw [habsa, habsb] at hd
              have := hja j hj0 hjc
              linarith
            · push_neg at hjc
              rw [habsb, abs_of_pos (by have := hjb j (by omega) hjn; linarith)]
              have := hjb j (by omega) hjn
              linarith
          · intro j hj0 hjn habs
            by_contra hcon
            push_neg at hcon
            have hj' : c < j := by omega
            rw [habsb, abs_of_pos (by have := hjb j (by omega) hjn; linarith)] at habs
            have := hsortn c j (by omega) hj' hjn
            linarith
      · have hc0' : c = 0 := by
          by_contra hcon
          have : vQ s.timestamps 0 < x := hbelow 0 (by omega) (by omega)
          linarith
        subst hc0'
        rw [if_neg (by omega : ¬(0 < (0 : ℤ) ∧ (0 : ℤ) - 1 < (s.size : ℤ) - 1))]
      · have hcn' : c = (s.size : ℤ) := by
          by_contra hcon
          have : x < vQ s.timestamps ((s.size : ℤ) - 1) :=
            habove ((s.size : ℤ) - 1) (by omega) (by omega)
          linarith
        subst hcn'
        rw [if_neg (by omega :
          ¬(0 < ((s.size : ℤ)) ∧ ((s.size : ℤ)) - 1 < (s.size : ℤ) - 1))]

/-- The two-row stock used to exercise `getIndex`. -/
def c4Stock : Stock :=
  { name := "X"
    volumes := [1, 1]
    opens := [1, 1]
    closes := [1, 1]
    highs := [1, 1]
    lows := [1, 1]
    timestamps := [0, 10]
    transactions := [0, 0]
    timestampIndex := [(0, 0), (10, 1)]
    granularity := 86400000 }

/-- C4 witness: on timestamps `[0, 10]` and `ts = 9`, `getIndex` returns a
row in range whose timestamp is nearest to 9. -/
theorem C4_witness :
    0 ≤ c4Stock.getIndex 9 ∧ c4Stock.getIndex 9 < (c4Stock.size : ℤ)
    ∧ (∀ j : ℤ, 0 ≤ j → j < (c4Stock.size : ℤ) →
        |vQ c4Stock.timestamps (c4Stock.getIndex 9) - 9| ≤ |vQ c4Stock.timestamps j - 9|)
    ∧ (∀ j : ℤ, 0 ≤ j → j < (c4Stock.size : ℤ) →
        |vQ c4Stock.timestamps j - 9| = |vQ c4Stock.timestamps (c4Stock.getIndex 9) - 9| →
        j ≤ c4Stock.getIndex 9) :=
  (C4_getIndex_nearest c4Stock 9 (by rfl)
      (by norm_num [c4Stock, List.pairwise_cons])
      (by norm_num [c4Stock, Stock.size])).1
    (by norm_num [c4Stock, vQ])
    (by norm_num [c4Stock, vQ, Stock.size])

/-- C4 counterexample to the claim as stated: with rows at timestamps 0 and
10 and `ts = 9` inside the covered range, `getIndex` returns row 1, whose
timestamp 10 is *not* `≤ 9` — the search picks the nearest row, not the
nearest row at or before `ts`. -/
theorem C4_counterexample :
    (0 : ℚ) ≤ 9 ∧ (9 : ℚ) ≤ 10
    ∧ c4Stock.getIndex 9 = 1
    ∧ (c4Stock.getCandle (c4Stock.getIndex 9)).map Candle.timestamp = some 10
    ∧ ¬((10 : ℚ) ≤ 9) := by
  have hidx : c4Stock.getIndex 9 = 1 := by
    norm_num [Stock.getIndex, bsLoop, vQ, c4Stock, Stock.size]
  refine ⟨by norm_num, by norm_num, hidx, ?_, by norm_num⟩
  rw [hidx]
  norm_num [Stock.getCandle, c4Stock, Stock.size]

/-! ### Claim C6 -/

theorem delistEntryStep_ne (present : List String) (b : List (String × ℚ))
    (c : List (String × ℚ)) (k t : String) (hne : k ≠ t) :
    lookupA (delistEntryStep present (b, c) k).1 t = lookupA b t
    ∧ lookupA (delistEntryStep present (b, c) k).2 t = lookupA c t := by
  unfold delistEntryStep
  by_cases hp : k ∈ present
  · simp [hp]
  · by_cases hgt : (lookupA c k).getD 0 + 1 > 10
    · simp [hp, hgt, lookupA_eraseA_ne _ _ _ hne.symm, lookupA_setA_ne _ _ _ _ hne.symm]
    · simp [hp, hgt, lookupA_setA_ne _ _ _ _ hne.symm]

theorem delist_foldl_not_mem (present : List String) (t : String) :
    ∀ (ks : List String), t ∉ ks → ∀ b c,
      lookupA ((ks.foldl (delistEntryStep present) (b, c)).1) t = lookupA b t
      ∧ lookupA ((ks.foldl (delistEntryStep present) (b, c)).2) t = lookupA c t := by
  intro ks
  induction ks with
  | nil => exact fun _ b c => ⟨rfl, rfl⟩
  | cons k rest ih =>
      intro hnm b c
      have hkt : k ≠ t := by
        intro h
        exact hnm (by rw [h]; exact List.mem_cons_self _ _)
      have hrest : t ∉ rest := fun h => hnm (List.mem_cons_of_mem _ h)
      rw [List.foldl_cons]
      have hstep := delistEntryStep_ne present b c k t hkt
      rcases hdef : delistEntryStep present (b, c) k with ⟨b', c'⟩
      rw [hdef] at hstep
      have hrec := ih hrest b' c'
      exact ⟨hrec.1.trans hstep.1, hrec.2.trans hstep.2⟩

theorem delist_foldl_present (present : List String) (t : String)
    (hp : t ∈ present) :
    ∀ (ks : List String) (b c : List (String × ℚ)),
      lookupA ((ks.foldl (delistEntryStep present) (b, c)).1) t = lookupA b t
      ∧ lookupA ((ks.foldl (delistEntryStep present) (b, c)).2) t = lookupA c t := by
  intro ks
  induction ks with
  | nil => exact fun b c => ⟨rfl, rfl⟩
  | cons k rest ih =>
      intro b c
      rw [List.foldl_cons]
      by_cases hkt : k = t
      · subst hkt
        rw [show delistEntryStep present (b, c) k = (b, c) by simp [delistEntryStep, hp]]
        exact ih b c
      · have hstep := delistEntryStep_ne present b c k t hkt
        rcases hdef : delistEntryStep present (b, c) k with ⟨b', c'⟩
        rw [hdef] at hstep
        have hrec := ih b' c'
        exact ⟨hrec.1.trans hstep.1, hrec.2.trans hstep.2⟩

/-- C6 (amended): on a dispatched (non-empty) tick, a held ticker absent
from the per-symbol set has its `delistCounter` bumped by one from its
current value — the counter is never reset, so the absences it counts need
not be consecutive — and the ticker is dropped from `stockBalances` exactly
when the accumulated count exceeds 10; a present ticker keeps both its
balance and its counter value (no reset happens); and the delisting block
touches neither `swaps`, `trades` nor `cashBalance` (the drop is silent:
no sell swap, no proceeds). -/
theorem C6_delisting (s : BacktestState) (present : List String) (t : String) (q : ℚ)
    (hnodup : (s.stockBalances.map Prod.fst).Nodup)
    (hbal : lookupA s.stockBalances t = some q)
    (hne : present ≠ []) :
    (t ∉ present →
      lookupA (Backtest.delistTick s present).delistCounter t
        = some ((lookupA s.delistCounter t).getD 0 + 1)
      ∧ lookupA (Backtest.delistTick s present).stockBalances t
        = (if (lookupA s.delistCounter t).getD 0 + 1 > 10 then none else some q))
    ∧ (t ∈ present →
      lookupA (Backtest.delistTick s present).delistCounter t = lookupA s.delistCounter t
      ∧ lookupA (Backtest.delistTick s present).stockBalances t = some q)
    ∧ (Backtest.delistTick s present).swaps = s.swaps
    ∧ (Backtest.delistTick s present).trades = s.trades
    ∧ (Backtest.delistTick s present).cashBalance = s.cashBalance := by
  have hie : present.isEmpty = false := by
    cases present with
    | nil => exact absurd rfl hne
    | cons a l => rfl
  unfold Backtest.delistTick
  rw [hie]
  simp only [Bool.false_eq_true, if_false]
  refine ⟨fun habs => ?_, fun hp => ?_, True.intro, True.intro, True.intro⟩
  · have hks : t ∈ s.stockBalances.map Prod.fst :=
      List.mem_map_of_mem Prod.fst (lookupA_mem _ _ _ hbal)
    rcases List.append_of_mem hks with ⟨l1, l2, hsplit⟩
    have hnodup' : (l1 ++ t :: l2).Nodup := by rw [← hsplit]; exact hnodup
    rcases List.nodup_append.mp hnodup' with ⟨hn1, hn2, hdisj⟩
    have ht1 : t ∉ l1 := fun h => hdisj h (List.mem_cons_self _ _)
    have ht2 : t ∉ l2 := (List.nodup_cons.mp hn2).1
    rw [hsplit, List.foldl_append, List.foldl_cons]
    rcases hacc : l1.foldl (delistEntryStep present) (s.stockBalances, s.delistCounter)
      with ⟨b1, c1⟩
    have hl1 := delist_foldl_not_mem present t l1 ht1 s.stockBalances s.delistCounter
    rw [hacc] at hl1
    have hstep : delistEntryStep present (b1, c1) t =
        (if (lookupA s.delistCounter t).getD 0 + 1 > 10
          then eraseA b1 t
          else b1,
         setA c1 t ((lookupA s.delistCounter t).getD 0 + 1)) := by
      unfold delistEntryStep
      rw [if_neg habs]
      rw [hl1.2]
      by_cases hgt : (lookupA s.delistCounter t).getD 0 + 1 > 10
      · rw [if_pos hgt, if_pos hgt]
      · rw [if_neg hgt, if_neg hgt]
    rw [hstep]
    by_cases hgt : (lookupA s.delistCounter t).getD 0 + 1 > 10
    · rw [if_pos hgt]
      have hl2 := delist_foldl_not_mem present t l2 ht2 (eraseA b1 t)
        (setA c1 t ((lookupA s.delistCounter t).getD 0 + 1))
      refine ⟨hl2.2.trans (lookupA_setA_self _ _ _), ?_⟩
      rw [if_pos hgt]
      exact hl2.1.trans (lookupA_eraseA_self _ _)
    · rw [if_neg hgt]
      have hl2 := delist_foldl_not_mem present t l2 ht2 b1
        (setA c1 t ((lookupA s.delistCounter t).getD 0 + 1))
      refine ⟨hl2.2.trans (lookupA_setA_self _ _ _), ?_⟩
      rw [if_neg hgt]
      exact hl2.1.trans (hl1.1.trans hbal)
  · have h := delist_foldl_present present t hp (s.stockBalances.map Prod.fst)
      s.stockBalances s.delistCounter
    exact ⟨h.2, h.1.trans hbal⟩

/-- Input state for the C6 witness: held A and B, B already missed ten
dispatched bars. -/
def c6wS0 : BacktestState :=
  { initState 50 with
    stockBalances := [("A", 1), ("B", 2)]
    delistCounter := [("B", 10)] }

/-- C6 witness: on a tick where only A trades, B's counter reaches 11 and B
is dropped, while A is untouched; swaps, trades and cash are untouched. -/
theorem C6_witness :
    (lookupA (Backtest.delistTick c6wS0 ["A"]).delistCounter "B" = some 11
      ∧ lookupA (Backtest.delistTick c6wS0 ["A"]).stockBalances "B" = none)
    ∧ (lookupA (Backtest.delistTick c6wS0 ["A"]).delistCounter "A"
        = lookupA c6wS0.delistCounter "A"
      ∧ lookupA (Backtest.delistTick c6wS0 ["A"]).stockBalances "A" = some 1)
    ∧ (Backtest.delistTick c6wS0 ["A"]).swaps = c6wS0.swaps
    ∧ (Backtest.delistTick c6wS0 ["A"]).trades = c6wS0.trades
    ∧ (Backtest.delistTick c6wS0 ["A"]).cashBalance = c6wS0.cashBalance := by
  have h := C6_delisting c6wS0 ["A"] "B" 2
    (by simp [c6wS0, initState])
    (by norm_num [c6wS0, initState, lookupA]; decide)
    (by simp)
  have hA := C6_delisting c6wS0 ["A"] "A" 1
    (by simp [c6wS0, initState])
    (by norm_num [c6wS0, initState, lookupA])
    (by simp)
  refine ⟨?_, ?_, h.2.2.1, h.2.2.2.1, h.2.2.2.2⟩
  · have hb := h.1 (by simp)
    have hc0 : (lookupA c6wS0.delistCounter "B").getD 0 = 10 := by
      norm_num [c6wS0, initState, lookupA]
    rw [hc0] at hb
    refine ⟨by rw [hb.1]; norm_num, by rw [hb.2, if_pos (by norm_num)]⟩
  · exact hA.2.1 (by simp)

/-- Initial state of the C6 counterexample: one held ticker B. -/
def c6cexS0 : BacktestState :=
  { initState 50 with stockBalances := [("B", 1)] }

/-- Tick schedule of the C6 counterexample: B misses 10 dispatched bars,
then trades again on the 11th, then misses one more. -/
def c6cexTicks : List (List String) :=
  List.replicate 10 ["A"] ++ [["A", "B"], ["A"]]

/-- C6 counterexample to the claim as stated: B is never absent for 11
consecutive bars — it reappears on the 11th tick — yet after one further
absence it is dropped, because the code never resets `delistCounter` on
presence. -/
theorem C6_counterexample :
    c6cexTicks.take 10 = List.replicate 10 ["A"]
    ∧ c6cexTicks.getD 10 [] = ["A", "B"]
    ∧ c6cexTicks.getD 11 [] = ["A"]
    ∧ lookupA (Backtest.delistRun c6cexS0 c6cexTicks).stockBalances "B" = none := by
  refine ⟨by decide, by decide, by decide, ?_⟩
  norm_num [Backtest.delistRun, Backtest.delistTick, delistEntryStep, c6cexS0, c6cexTicks,
    initState, lookupA, setA, eraseA, List.filter, List.replicate, List.foldl]

/-- C10 witness: the partial sell of A leaves `holdSince`, `stockFeatures`
and every B entry unchanged. -/
theorem C10_witness :
    Backtest.sell feeFree c10wS0 "A" 2 10 9 = .ok c10wS1
    ∧ ((lookupA c10wS0.stockBalances "A").getD 0 - 2 ≠ 0 →
        c10wS1.holdSince = c10wS0.holdSince
        ∧ c10wS1.stockFeatures = c10wS0.stockFeatures)
    ∧ (∀ u, u ≠ "A" →
        lookupA c10wS1.stockBalances u = lookupA c10wS0.stockBalances u
        ∧ lookupA c10wS1.stockPrices u = lookupA c10wS0.stockPrices u
        ∧ lookupA c10wS1.holdSince u = lookupA c10wS0.holdSince u
        ∧ lookupA c10wS1.stockFeatures u = lookupA c10wS0.stockFeatures u) := by
  have h : Backtest.sell feeFree c10wS0 "A" 2 10 9 = .ok c10wS1 := by
    norm_num [Backtest.sell, feeFree, c10wS0, c10wS1, initState, lookupA, setA, eraseA,
      List.filter, List.findIdx, List.findIdx.go]
  exact ⟨h, C10_sell_frame feeFree c10wS0 "A" 2 10 9 c10wS1 h⟩

end StockRunner
